import Mathlib

/-!
Verification of the binbuild build-orchestration core.

The development shallowly embeds the TypeScript sources:
  * `src/strip_dirs.ts`   — `stripDirs` and the Node `path` (POSIX) primitives it uses;
  * `src/unarchive.ts`    — `walkDir` and the zip post-extraction strip phase;
  * `src/download.ts`     — `download`, `downloadFromURL`, `downloadAndExtract`,
                            `isURL` / `isLocalPath` / `trimLocalURL`;
  * `builder.ts`          — `BinBuilder` state, `src`, `getSrcs`, `build` and its phases.

Machine integers do not occur; paths are strings over the POSIX separator `/`
(the Node `path` module functions are embedded at the character/component level,
following the reference implementations of `path.posix`).  External collaborators
(WHATWG URL parsing, HTTP transport, the process runner, content sniffing) are
modelled through the contracts the spec assigns to them, as explicit parameters.
-/

namespace BinBuild

/-! ### Node `path.posix` primitives used by `strip_dirs.ts`

`path.sep` is `/`.  JavaScript `String.split("/")` keeps empty pieces and
always returns at least one piece. -/

/-- JavaScript `s.split("/")` on the character list: split at every `/`,
keeping empty pieces; always at least one piece. -/
def splitChars : List Char → List (List Char)
  | [] => [[]]
  | c :: rest =>
    if c = '/' then [] :: splitChars rest
    else
      match splitChars rest with
      | [] => [[c]]
      | p :: ps => (c :: p) :: ps

/-- JavaScript `s.split(path.sep)` for a string. -/
def jsSplit (s : String) : List String :=
  (splitChars s.data).map (fun l => ⟨l⟩)

/-- Joining a component list with the separator `/` (no filtering, no
normalization); the plain JavaScript `parts.join("/")`. -/
def intercalateSlash : List String → String
  | [] => ""
  | [x] => x
  | x :: xs => x ++ "/" ++ intercalateSlash xs

/-- `s.charCodeAt(0) === '/'` — the path is absolute. -/
def startsWithSlash (s : String) : Bool :=
  match s.data with
  | [] => false
  | c :: _ => c = '/'

/-- `s.charCodeAt(s.length - 1) === '/'` — the path has a trailing separator. -/
def endsWithSlash (s : String) : Bool :=
  match s.data.getLast? with
  | some c => c = '/'
  | none => false

/-- The component resolution loop of Node's `normalizeString`: empty pieces and
`.` are dropped, `..` pops the previous component, and (only for relative
paths, `allowAbove = true`) a `..` with nothing left to pop is kept.
The accumulator holds the output components in reverse. -/
def normParts (allowAbove : Bool) : List String → List String → List String
  | acc, [] => acc.reverse
  | acc, p :: rest =>
    if p = "" ∨ p = "." then normParts allowAbove acc rest
    else if p = ".." then
      match acc with
      | [] => normParts allowAbove (if allowAbove then [".."] else []) rest
      | q :: acc' =>
        if q = ".." then normParts allowAbove (".." :: (q :: acc')) rest
        else normParts allowAbove acc' rest
    else normParts allowAbove (p :: acc) rest

/-- Node `path.posix.normalize`. -/
def normalize (s : String) : String :=
  if s = "" then "."
  else
    let isAbs := startsWithSlash s
    let trailing := endsWithSlash s
    let normed := normParts (!isAbs) [] (jsSplit s)
    if normed = [] then
      if isAbs then "/" else if trailing then "./" else "."
    else
      (if isAbs then "/" else "") ++ intercalateSlash normed ++
        (if trailing then "/" else "")

/-- Node `path.posix.join(...parts)`: zero-length arguments are skipped, the
rest are joined with `/` and the result normalized; all-empty input gives `.`. -/
def joinList (parts : List String) : String :=
  let j := intercalateSlash (parts.filter (fun p => p ≠ ""))
  if j = "" then "." else normalize j

/-- Node `path.posix.basename` (no extension argument): the last nonempty
component, ignoring trailing separators; empty when the path consists only of
separators (or is empty). -/
def basename (s : String) : String :=
  (((jsSplit s).reverse).dropWhile (fun p => p = "")).headD ""

/-- Index of the last nonempty component of a split path, if any. -/
def lastNonemptyIdx (ps : List String) : Option Nat :=
  match ps.reverse.findIdx? (fun p => p ≠ "") with
  | none => none
  | some j => some (ps.length - 1 - j)

/-- Node `path.posix.dirname`, computed at the component level: everything up
to the separator preceding the basename; `.` when there is no directory part,
`/` (or the preserved `//`) for root-anchored paths. -/
def dirname (s : String) : String :=
  if s = "" then "."
  else
    let hasRoot := startsWithSlash s
    let parts := jsSplit s
    match lastNonemptyIdx parts with
    | none => if hasRoot then "/" else "."
    | some k =>
      if k = 0 then "."
      else
        let pre := intercalateSlash (parts.take k)
        if pre = "" then (if hasRoot then "/" else ".")
        else if hasRoot ∧ pre.length = 1 then "//"
        else pre

/-- The `for(let i = 0; i < level; i++) dirs.pop();` loop of `stripDirs`. -/
def popN (ds : List String) : Nat → List String
  | 0 => ds
  | n + 1 => popN ds.dropLast n

/-- `stripDirs(dir, level)` from `src/strip_dirs.ts`:
`dirs = path.dirname(dir).split(path.sep); base = path.basename(dir);`
if `dirs.length < level` rejoin unchanged, else pop `level` components from
the end of `dirs` and rejoin with `path.join`. -/
def stripDirs (dir : String) (level : Nat) : String :=
  let dirs := jsSplit (dirname dir)
  let base := basename dir
  if dirs.length < level then joinList (dirs ++ [base])
  else joinList (popN dirs level ++ [base])

/-! ### `src/unarchive.ts` — the zip strip phase

`extractZip` first fully extracts the archive, then (when `strip` is set)
collects "leaves" with `walkDir(dest, strip+1)` and renames each leaf to
`stripDirs(leaf, strip)`.  The filesystem under the destination directory is
modelled as a tree of named entries; `readdir(p, {withFileTypes})` is the
listing of a `dir` node. -/

/-- A directory subtree: entry names mapped to files or further directories. -/
inductive FSTree where
  | file : FSTree
  | dir : List (String × FSTree) → FSTree

/-- `walkDir(filepath, maxDepth, currDepth)` from `src/unarchive.ts`, run
against the subtree `t` rooted at `filepath`: returns `[]` once
`currDepth > maxDepth`; otherwise lists the entries, recursing into a
directory entry only while `currDepth + 1 < maxDepth` and collecting it as an
opaque leaf otherwise; file entries are always collected. -/
def walkDir (t : FSTree) (filepath : String) (maxDepth currDepth : Nat) :
    List String :=
  if currDepth > maxDepth then []
  else
    match t with
    | .file => []
    | .dir entries =>
      entries.flatMap fun e =>
        let entryPath := joinList [filepath, e.1]
        match e.2 with
        | .file => [entryPath]
        | .dir _ =>
          if _h : currDepth + 1 < maxDepth then
            walkDir e.2 entryPath maxDepth (currDepth + 1)
          else [entryPath]
termination_by maxDepth - currDepth
decreasing_by omega

/-- The rename list produced by the strip phase of `extractZip`: every leaf of
`walkDir(dest, strip+1)` is renamed to `stripDirs(leaf, strip)`. -/
def zipStripRenames (entries : List (String × FSTree)) (dest : String)
    (strip : Nat) : List (String × String) :=
  (walkDir (.dir entries) dest (strip + 1) 0).map fun leaf =>
    (leaf, stripDirs leaf strip)

/-- First entry of a directory listing with the given name, if any. -/
def lookupName : List (String × FSTree) → String → Option FSTree
  | [], _ => none
  | (m, t) :: rest, n => if m = n then some t else lookupName rest n

/-- The subtree reached from `t` by following a component path. -/
def FSTree.findPath : FSTree → List String → Option FSTree
  | t, [] => some t
  | .file, _ :: _ => none
  | .dir entries, n :: rest =>
    match lookupName entries n with
    | some sub => sub.findPath rest
    | none => none

/-- The path string `walkDir` builds for a component path below `filepath`:
successive `path.join(filepath, entry.name)` steps. -/
def renderPath (filepath : String) (comps : List String) : String :=
  comps.foldl (fun acc c => joinList [acc, c]) filepath

/-- Well-formed directory listings: entry names are unique at every level (as
delivered by `readdir`). -/
inductive FSTree.WF : FSTree → Prop
  | file : FSTree.WF .file
  | dir (entries : List (String × FSTree)) :
      (entries.map Prod.fst).Nodup →
      (∀ e ∈ entries, FSTree.WF e.2) →
      FSTree.WF (.dir entries)

/-! ### `src/download.ts`

The WHATWG `URL` constructor is an external collaborator: it is modelled as an
abstract parser `parse : String → Option URLRec` (`none` exactly when
`new URL(s)` throws), carrying the `protocol` and `pathname` properties the
code reads.  The HTTP client is the collaborator contract of §6:
`get(url) -> {ok, status, statusText, body}`. -/

/-- The fields of a parsed WHATWG `URL` that `download.ts` reads. -/
structure URLRec where
  protocol : String
  pathname : String

/-- `isURL(pathLike)`: `new URL` succeeds. -/
def isURL (parse : String → Option URLRec) (pathLike : String) : Bool :=
  (parse pathLike).isSome

/-- `isLocalPath(pathLike)`: not a URL, or a URL whose protocol is `file:`. -/
def isLocalPath (parse : String → Option URLRec) (pathLike : String) : Bool :=
  if isURL parse pathLike then
    match parse pathLike with
    | some u => if u.protocol ≠ "file:" then false else true
    | none => true
  else true

/-- `trimLocalURL(pathLike)`: the URL's `pathname` when it parses, the input
itself otherwise. -/
def trimLocalURL (parse : String → Option URLRec) (pathLike : String) :
    String :=
  match parse pathLike with
  | some u => u.pathname
  | none => pathLike

/-- The I/O action `download(url, dest)` dispatches to: a local byte-for-byte
copy (`fs.promises.copyFile`) or an HTTP GET streamed to `dest`. -/
inductive DLAction where
  | copy (src dest : String)
  | fetchGET (url dest : String)
deriving DecidableEq

/-- `download(url, dest)` from `src/download.ts`: local sources are copied
from `trimLocalURL(url)`, remote sources are fetched. -/
def download (parse : String → Option URLRec) (url dest : String) : DLAction :=
  if isLocalPath parse url then .copy (trimLocalURL parse url) dest
  else .fetchGET url dest

/-- A local content store: file paths mapped to byte lists. -/
def Files := List (String × List Nat)

/-- Content of a file in the store, if present. -/
def readFile (fs : Files) (p : String) : Option (List Nat) :=
  ((fs : List (String × List Nat)).find? (fun e => e.1 = p)).map (fun e => e.2)

/-- `fs.promises.copyFile(src, dest)` on the content store. -/
def copyLocalFile (fs : Files) (src dest : String) : Files :=
  match readFile fs src with
  | some bytes =>
    (dest, bytes) :: (fs : List (String × List Nat)).filter (fun e => e.1 ≠ dest)
  | none => fs

/-- The §6 HTTP-client contract: `get(url) -> {ok, status, statusText, body}`;
`streamOk` tells whether streaming the body to disk runs to completion. -/
structure HTTPResp where
  ok : Bool
  status : Nat
  statusText : String
  hasBody : Bool
  streamOk : Bool

/-- `downloadFromURL(url, dest)` from `src/download.ts`, emitted as
(outcome, a-file-exists-at-dest).  Transliterated in source order: the write
stream is created — creating (or truncating) the file at `dest` — before
`resp.ok` is checked; the HTTP-error and empty-body throws do not unlink it;
only a streaming failure unlinks `dest`. -/
def downloadFromURL (url : String) (resp : HTTPResp) :
    Except String Unit × Bool :=
  let destFileExists := true
  if !resp.ok then
    (.error ("HTTP error (" ++ toString resp.status ++ "): " ++ resp.statusText),
      destFileExists)
  else if !resp.hasBody then
    (.error "Empty response body!", destFileExists)
  else if !resp.streamOk then
    (.error ("Failed to download " ++ url), false)
  else (.ok (), destFileExists)

/-- Archive formats of `src/unarchive.ts`. -/
inductive ArchiveFormat where
  | tar
  | zip
deriving DecidableEq

/-- The extraction request `downloadAndExtract` hands to `extract`. -/
structure ExtractCall where
  file : String
  dest : String
  format : ArchiveFormat
  strip : Option Nat
deriving DecidableEq

/-- `downloadAndExtract(url, dest, strip)` from `src/download.ts`, inside a
scoped temp file `temp`: after `download` succeeds, the sniffed content type
`mime` of the temp file (`getType`, an external collaborator) is switched to
an archive format — `application/gzip` and `application/x-bzip2` to `tar`,
`application/zip` to `zip`, anything else throwing `Unsupported format` with
the url and the detected type — and extraction is requested to `dest` with the
given strip level. -/
def downloadAndExtract (url dest : String) (strip : Option Nat)
    (dlResult : Except String Unit) (mime : String) (temp : String) :
    Except String ExtractCall :=
  match dlResult with
  | .error e => .error e
  | .ok _ =>
    if mime = "application/gzip" then .ok ⟨temp, dest, .tar, strip⟩
    else if mime = "application/x-bzip2" then .ok ⟨temp, dest, .tar, strip⟩
    else if mime = "application/zip" then .ok ⟨temp, dest, .zip, strip⟩
    else .error ("Unsupported format for " ++ url ++ ": " ++ mime)

/-! ### `builder.ts` — the `BinBuilder` orchestrator

The host identity (`process.platform` / `process.arch`) is passed explicitly;
the process runner follows the §6 collaborator contract
`run(executable, args, cwd, ...) -> exitCode`. -/

/-- The current host: `process.platform` and `process.arch`. -/
structure Host where
  platform : String
  arch : String

/-- A registered binary source. -/
structure Source where
  os : String
  arch : String
  url : String
deriving DecidableEq

/-- A build command: executable plus arguments. -/
structure Command where
  cmd : String
  args : List String
deriving DecidableEq

/-- A remap entry; `dest` is optional and defaults to `src`. -/
structure Remap where
  src : String
  dest : Option String
deriving DecidableEq

/-- The mutable fields of a `BinBuilder` instance. -/
structure BinBuilder where
  sources : List Source
  destination : String
  downloaded : List String
  cmds : List Command
  fileRemaps : List Remap

/-- The `BinBuilder` constructor: all collections empty. -/
def BinBuilder.new : BinBuilder :=
  ⟨[], "", [], [], []⟩

/-- `src(url, os, arch)` with both tags given: pushes the source. -/
def BinBuilder.srcWith (b : BinBuilder) (url os arch : String) : BinBuilder :=
  { b with sources := b.sources ++ [⟨os, arch, url⟩] }

/-- `src(url)`: the default parameters `os = process.platform` and
`arch = process.arch` are evaluated when the call is made, so the source is
pinned to the host passed here. -/
def BinBuilder.src (host : Host) (b : BinBuilder) (url : String) : BinBuilder :=
  b.srcWith url host.platform host.arch

/-- `getSrcs()`: the registered sources whose os and arch strictly equal the
current host's values. -/
def BinBuilder.getSrcs (host : Host) (b : BinBuilder) : List Source :=
  b.sources.filter fun s => decide (s.os = host.platform ∧ s.arch = host.arch)

/-- Modelled from the spec: `src/platform.ts` is not among the sources; §6
specifies the host identity helper `osArchPair() -> "OS-ARCH"` combining the
current host platform and architecture tags. -/
def osArchPair (host : Host) : String :=
  host.platform ++ "-" ++ host.arch

/-- An invocation of `downloadAndExtract` issued by the download phase. -/
structure DLCall where
  url : String
  dest : String
  strip : Option Nat
deriving DecidableEq

/-- The private `download(dest)` method: with no matching source it throws
`No binary for {osArchPair()}`; otherwise it issues
`downloadAndExtract(src.url, dest, 1)` for every matching source. -/
def BinBuilder.downloadCalls (host : Host) (b : BinBuilder) (buildDir : String) :
    Except String (List DLCall) :=
  let srcs := b.getSrcs host
  if srcs.length < 1 then .error ("No binary for " ++ osArchPair host)
  else .ok (srcs.map fun s => ⟨s.url, buildDir, some 1⟩)

/-- `Promise.all`: the join rejects with the first rejection among the
outcomes (completion order across concurrent fetches is unspecified; the
registration order stands in for it here, which no settled claim depends on). -/
def firstErr : List (Except String Unit) → Except String Unit
  | [] => .ok ()
  | .error e :: _ => .error e
  | .ok _ :: rest => firstErr rest

/-- The command loop of `build()` under the §6 process-runner contract
(`run` returns the exit code): commands run sequentially; the first non-zero
exit throws `Build error: {cmd} returns {exitCode}` and stops the loop.
Returns the commands that actually executed together with the outcome. -/
def runCmdsTrace (run : Command → Int) :
    List Command → List Command × Except String Unit
  | [] => ([], .ok ())
  | c :: rest =>
    if run c ≠ 0 then
      ([c], .error ("Build error: " ++ c.cmd ++ " returns " ++ toString (run c)))
    else
      let t := runCmdsTrace run rest
      (c :: t.1, t.2)

/-- Filesystem operations issued by the remap phase. -/
inductive FSOp where
  | mkdirRec (p : String)
  | rename (src dst : String)
deriving DecidableEq

/-- A flat location store: absolute paths mapped to the subtree rooted there.
Adequate for whole-subtree moves, which is all the remap phase performs. -/
def FlatFS := List (String × FSTree)

/-- The subtree currently at `p`. -/
def lookupFS (fs : FlatFS) (p : String) : Option FSTree :=
  ((fs : List (String × FSTree)).find? (fun e => e.1 = p)).map (fun e => e.2)

/-- The `exists(filepath)` helper of builder.ts (an `fs.promises.access`
probe). -/
def existsFS (fs : FlatFS) (p : String) : Bool :=
  (lookupFS fs p).isSome

/-- Effect of one filesystem operation on the flat store:
`fs.promises.mkdir(p, {recursive:true})` materialises an empty directory;
`fs.promises.rename(src, dst)` moves the subtree at `src` to `dst`,
replacing what was there. -/
def applyOp (fs : FlatFS) : FSOp → FlatFS
  | .mkdirRec p =>
    if existsFS fs p then fs else ((p, .dir []) :: (fs : List (String × FSTree)) : List (String × FSTree))
  | .rename src dst =>
    match lookupFS fs src with
    | some t =>
      ((dst, t) :: (fs : List (String × FSTree)).filter (fun e => e.1 ≠ src ∧ e.1 ≠ dst) : List (String × FSTree))
    | none => fs

/-- The remapping tail of `build()`: with a non-empty remap list, each entry
in order computes `src = join(buildDir, remap.src)`,
`dst = join(dest(), remap.dest || remap.src)` (JavaScript `||` also replaces
an empty-string `dest`), creates `dirname(dst)` if absent and renames `src`
to `dst`; with an empty list, the whole `buildDir` is renamed to `dest()`.
Returns the final store and the operation trace. -/
def BinBuilder.remapPhase (b : BinBuilder) (buildDir : String) (fs : FlatFS) :
    FlatFS × List FSOp :=
  if b.fileRemaps.length > 0 then
    b.fileRemaps.foldl
      (fun acc r =>
        let src := joinList [buildDir, r.src]
        let dst := joinList [b.destination,
          match r.dest with
          | some d => if d = "" then r.src else d
          | none => r.src]
        let dstDir := dirname dst
        let acc' :=
          if existsFS acc.1 dstDir then acc
          else (applyOp acc.1 (.mkdirRec dstDir), acc.2 ++ [FSOp.mkdirRec dstDir])
        (applyOp acc'.1 (.rename src dst), acc'.2 ++ [FSOp.rename src dst]))
      (fs, [])
  else (applyOp fs (.rename buildDir b.destination),
    [FSOp.rename buildDir b.destination])

/-- Environment of one `build()` call: whether the target directory already
exists, the per-url outcome of `downloadAndExtract`, the process runner, and
the outcome of the remap phase's filesystem writes. -/
structure BuildEnv where
  destExists : Bool
  dl : String → Except String Unit
  run : Command → Int
  remapOk : Except String Unit

/-- `ensureExist()`: returns early when the target directory exists, otherwise
creates it recursively (`mkdirSync`, modelled as succeeding). -/
def BinBuilder.ensureExist (_b : BinBuilder) (env : BuildEnv) :
    Except String Unit :=
  if env.destExists then .ok () else .ok ()

/-- The body of the task `build()` hands to `tempDirectoryTask`: download
phase, then the sequential command loop, then the remap phase. -/
def BinBuilder.buildTask (host : Host) (b : BinBuilder) (env : BuildEnv)
    (buildDir : String) : Except String Unit :=
  match b.downloadCalls host buildDir with
  | .error e => .error e
  | .ok calls =>
    match firstErr (calls.map fun c => env.dl c.url) with
    | .error e => .error e
    | .ok _ =>
      match (runCmdsTrace env.run b.cmds).2 with
      | .error e => .error e
      | .ok _ => env.remapOk

/-- `build()` from builder.ts: awaits `ensureExist()`, then invokes
`tempDirectoryTask(async buildDir => ...)` WITHOUT awaiting it — the task's
promise is discarded, so the promise `build()` returns settles from
`ensureExist()` alone.  (`tempDirectoryTask` lives in the missing
`src/tempfile.ts`; modelled from the spec, §4.6: it runs the task to
completion and guarantees cleanup, its own promise settling with the task's
outcome.)  The pair returned is (the promise `build()` returns, the discarded
task promise). -/
def BinBuilder.build (host : Host) (b : BinBuilder) (env : BuildEnv)
    (buildDir : String) : Except String Unit × Except String Unit :=
  match b.ensureExist env with
  | .error e => (.error e, .error e)
  | .ok _ => (.ok (), b.buildTask host env buildDir)

/-- A plain path component: nonempty, not `.` or `..`, and without the
separator — the shape of ordinary file and directory names. -/
def PlainName (x : String) : Prop :=
  x ≠ "" ∧ x ≠ "." ∧ x ≠ ".." ∧ '/' ∉ x.data

instance : DecidablePred PlainName := fun x => by
  unfold PlainName; infer_instance

/-! ### Concrete instances used by closed theorems and witnesses -/

/-- A sample host. -/
def hostX : Host := ⟨"linux", "x64"⟩

/-- Sample commands A (succeeds), B (exits 1) and C. -/
def cmdA : Command := ⟨"prepare", []⟩

/-- See `cmdA`. -/
def cmdB : Command := ⟨"false", []⟩

/-- See `cmdA`. -/
def cmdC : Command := ⟨"install", []⟩

/-- A builder with one source matching `hostX`, a target directory and the
command list `[A, B, C]`. -/
def builderX : BinBuilder :=
  { BinBuilder.src hostX BinBuilder.new "https://example.com/a.tgz" with
    destination := "/opt/bin"
    cmds := [cmdA, cmdB, cmdC] }

/-- An environment where the target directory exists, downloads succeed, the
command `false` exits 1 and every other command exits 0, and the remap writes
succeed. -/
def envX : BuildEnv :=
  ⟨true, fun _ => .ok (), fun c => if c.cmd = "false" then 1 else 0, .ok ()⟩

/-! ### Sanity checks of the `path.posix` embedding against Node behaviour -/

example : jsSplit "a//b" = ["a", "", "b"] := by decide
example : dirname "a//b" = "a/" := by decide
example : dirname "/a" = "/" := by decide
example : dirname "a/b/" = "a" := by decide
example : dirname "//a" = "//" := by decide
example : dirname "a" = "." := by decide
example : basename "a/b/" = "b" := by decide
example : basename "/" = "" := by decide
example : joinList [".", "c"] = "c" := by decide
example : joinList ["", "tmp", "x", "file"] = "tmp/x/file" := by decide
example : stripDirs "a/b/c" 1 = "a/c" := by decide
example : stripDirs "c" 2 = "c" := by decide
example : stripDirs "./a" 0 = "a" := by decide
example : stripDirs "a/b/c" 0 = "a/b/c" := by decide

/-! ### Lemmas about the `path.posix` embedding -/

theorem strData_append (s t : String) : (s ++ t).data = s.data ++ t.data :=
  rfl

theorem strExt {s t : String} (h : s.data = t.data) : s = t :=
  congrArg String.mk h

theorem str_ne_empty_of_data {s : String} (h : s.data ≠ []) : s ≠ "" := by
  intro he
  exact h (by rw [he])

theorem mk_data (s : String) : (⟨s.data⟩ : String) = s := rfl

theorem str_empty_append (s : String) : "" ++ s = s := strExt rfl

theorem str_append_empty (s : String) : s ++ "" = s :=
  strExt (by rw [strData_append]; simp)

theorem splitChars_no_slash (l : List Char) (h : '/' ∉ l) :
    splitChars l = [l] := by
  induction l with
  | nil => rfl
  | cons c rest ih =>
    have hc : c ≠ '/' := fun hc => h (hc ▸ List.mem_cons_self c rest)
    have hr : '/' ∉ rest := fun hr => h (List.mem_cons_of_mem c hr)
    rw [splitChars, if_neg hc, ih hr]

theorem splitChars_split_at (xs rest : List Char) (h : '/' ∉ xs) :
    splitChars (xs ++ '/' :: rest) = xs :: splitChars rest := by
  induction xs with
  | nil =>
    rw [List.nil_append, splitChars, if_pos rfl]
  | cons c xs ih =>
    have hc : c ≠ '/' := fun hc => h (hc ▸ List.mem_cons_self c xs)
    have hx : '/' ∉ xs := fun hx => h (List.mem_cons_of_mem c hx)
    rw [List.cons_append, splitChars, if_neg hc, ih hx]

theorem jsSplit_no_slash (x : String) (h : '/' ∉ x.data) : jsSplit x = [x] := by
  unfold jsSplit
  rw [splitChars_no_slash _ h]
  rfl

theorem intercalateSlash_cons₂ (x y : String) (xs : List String) :
    intercalateSlash (x :: y :: xs) = x ++ "/" ++ intercalateSlash (y :: xs) :=
  rfl

theorem intercalateSlash_data_cons (x : String) (xs : List String) :
    ∃ r, (intercalateSlash (x :: xs)).data = x.data ++ r := by
  cases xs with
  | nil => exact ⟨[], by simp [intercalateSlash]⟩
  | cons y ys =>
    refine ⟨'/' :: (intercalateSlash (y :: ys)).data, ?_⟩
    rw [intercalateSlash_cons₂, strData_append, strData_append,
      List.append_assoc]
    rfl

theorem jsSplit_intercalate (parts : List String)
    (h : ∀ p ∈ parts, '/' ∉ p.data) (hne : parts ≠ []) :
    jsSplit (intercalateSlash parts) = parts := by
  induction parts with
  | nil => exact absurd rfl hne
  | cons x xs ih =>
    cases xs with
    | nil =>
      exact jsSplit_no_slash x (h x (List.mem_cons_self x []))
    | cons y ys =>
      have hx : '/' ∉ x.data := h x (List.mem_cons_self x (y :: ys))
      have hrest : ∀ p ∈ y :: ys, '/' ∉ p.data :=
        fun p hp => h p (List.mem_cons_of_mem x hp)
      have ihy := ih hrest (by simp)
      unfold jsSplit at ihy ⊢
      rw [intercalateSlash_cons₂, strData_append, strData_append]
      have : ("/" : String).data = ['/'] := rfl
      rw [this, List.append_assoc, List.singleton_append,
        splitChars_split_at _ _ hx, List.map_cons, mk_data, ihy]

theorem normParts_dropped (a : Bool) (ps : List String)
    (h : ∀ p ∈ ps, p = "" ∨ p = "." ∨ PlainName p) :
    ∀ acc, normParts a acc ps =
      acc.reverse ++ ps.filter (fun p => decide (p ≠ "" ∧ p ≠ ".")) := by
  induction ps with
  | nil => intro acc; simp [normParts]
  | cons p rest ih =>
    intro acc
    have hrest : ∀ q ∈ rest, q = "" ∨ q = "." ∨ PlainName q :=
      fun q hq => h q (List.mem_cons_of_mem p hq)
    rcases h p (List.mem_cons_self p rest) with hp | hp | hp
    · simp only [normParts]
      rw [if_pos (Or.inl hp), ih hrest]
      simp [hp]
    · simp only [normParts]
      rw [if_pos (Or.inr hp), ih hrest]
      simp [hp]
    · obtain ⟨h1, h2, h3, _⟩ := hp
      simp only [normParts]
      rw [if_neg (by simp [h1, h2]), if_neg h3, ih hrest]
      simp [h1, h2]

theorem intercalateSlash_snoc_cons (c b : String) (cs : List String) :
    intercalateSlash ((c :: cs) ++ [b]) =
      intercalateSlash (c :: cs) ++ "/" ++ b := by
  induction cs generalizing c with
  | nil => rfl
  | cons d cs ih =>
    simp only [List.cons_append] at ih ⊢
    rw [intercalateSlash_cons₂, ih d, intercalateSlash_cons₂]
    refine strExt ?_
    simp [strData_append, List.append_assoc]

theorem intercalateSlash_data_ne_nil (x : String) (xs : List String)
    (hx : x.data ≠ []) : (intercalateSlash (x :: xs)).data ≠ [] := by
  obtain ⟨r, hr⟩ := intercalateSlash_data_cons x xs
  rw [hr]
  simp [hx]

theorem intercalateSlash_ne_empty (x : String) (xs : List String)
    (hx : x ≠ "") : intercalateSlash (x :: xs) ≠ "" := by
  refine str_ne_empty_of_data (intercalateSlash_data_ne_nil x xs ?_)
  intro hd
  exact hx (strExt (by simp [hd]))

theorem startsWithSlash_intercalate (x : String) (xs : List String)
    (hx : x.data ≠ []) (hs : '/' ∉ x.data) :
    startsWithSlash (intercalateSlash (x :: xs)) = false := by
  obtain ⟨r, hr⟩ := intercalateSlash_data_cons x xs
  unfold startsWithSlash
  rw [hr]
  cases hd : x.data with
  | nil => exact absurd hd hx
  | cons c l =>
    have hc : c ≠ '/' := by
      intro hc
      exact hs (hd ▸ hc ▸ List.mem_cons_self c l)
    simp [hc]

theorem endsWithSlash_snoc (cs : List String) (b : String)
    (hb : b.data ≠ []) (hs : '/' ∉ b.data) :
    endsWithSlash (intercalateSlash (cs ++ [b])) = false := by
  unfold endsWithSlash
  have hlast : (intercalateSlash (cs ++ [b])).data.getLast? = b.data.getLast? := by
    cases cs with
    | nil => rfl
    | cons c cs' =>
      rw [intercalateSlash_snoc_cons, strData_append, strData_append]
      rw [List.getLast?_append_of_ne_nil _ hb]
  rw [hlast]
  cases hbl : b.data.getLast? with
  | none => rfl
  | some c =>
    have hc : c ≠ '/' := by
      intro hc
      exact hs (hc ▸ List.mem_of_mem_getLast? hbl)
    simp [hc]

theorem normalize_snoc_plain (cs : List String) (b : String)
    (h : ∀ x ∈ cs ++ [b], PlainName x) :
    normalize (intercalateSlash (cs ++ [b])) = intercalateSlash (cs ++ [b]) := by
  obtain ⟨hb1, _, _, hb4⟩ := h b (by simp)
  have hbd : b.data ≠ [] := by
    intro hd
    exact hb1 (strExt (by simp [hd]))
  have hhead : ∃ x xs, cs ++ [b] = x :: xs ∧ x.data ≠ [] ∧ '/' ∉ x.data := by
    cases cs with
    | nil =>
      exact ⟨b, [], rfl, hbd, hb4⟩
    | cons c cs' =>
      obtain ⟨hc1, _, _, hc4⟩ := h c (by simp)
      refine ⟨c, cs' ++ [b], rfl, ?_, hc4⟩
      intro hd
      exact hc1 (strExt (by simp [hd]))
  obtain ⟨x, xs, hx, hxd, hxs⟩ := hhead
  have hxmem : x ∈ cs ++ [b] := by
    rw [hx]
    exact List.mem_cons_self x xs
  have hne : intercalateSlash (cs ++ [b]) ≠ "" := by
    rw [hx]
    exact intercalateSlash_ne_empty x xs (h x hxmem).1
  unfold normalize
  rw [if_neg hne]
  have habs : startsWithSlash (intercalateSlash (cs ++ [b])) = false := by
    rw [hx]; exact startsWithSlash_intercalate x xs hxd hxs
  have htrail : endsWithSlash (intercalateSlash (cs ++ [b])) = false :=
    endsWithSlash_snoc cs b hbd hb4
  have hsplit : jsSplit (intercalateSlash (cs ++ [b])) = cs ++ [b] := by
    refine jsSplit_intercalate _ (fun p hp => (h p hp).2.2.2) (by simp)
  simp only [habs, htrail, hsplit, Bool.not_false, Bool.false_eq_true,
    if_false]
  have hplain : ∀ p ∈ cs ++ [b], p = "" ∨ p = "." ∨ PlainName p :=
    fun p hp => Or.inr (Or.inr (h p hp))
  rw [normParts_dropped _ _ hplain []]
  have hfilter : (cs ++ [b]).filter (fun p => decide (p ≠ "" ∧ p ≠ ".")) =
      cs ++ [b] := by
    refine List.filter_eq_self.mpr ?_
    intro p hp
    obtain ⟨h1, h2, _, _⟩ := h p hp
    simp [h1, h2]
  simp only [List.reverse_nil, List.nil_append, hfilter]
  rw [if_neg (by rw [hx]; simp)]
  refine strExt ?_
  simp [strData_append]

theorem joinList_snoc_plain (cs : List String) (b : String)
    (h : ∀ x ∈ cs ++ [b], PlainName x) :
    joinList (cs ++ [b]) = intercalateSlash (cs ++ [b]) := by
  unfold joinList
  have hfilter : (cs ++ [b]).filter (fun p => decide (p ≠ "")) = cs ++ [b] := by
    refine List.filter_eq_self.mpr ?_
    intro p hp
    simp [(h p hp).1]
  rw [hfilter]
  have hne : intercalateSlash (cs ++ [b]) ≠ "" := by
    cases cs with
    | nil => exact (by simpa using (h b (by simp)).1)
    | cons c cs' =>
      exact intercalateSlash_ne_empty c _ (h c (by simp)).1
  rw [if_neg hne, normalize_snoc_plain cs b h]

theorem basename_snoc (cs : List String) (b : String)
    (h : ∀ x ∈ cs ++ [b], '/' ∉ x.data) (hb : b ≠ "") :
    basename (intercalateSlash (cs ++ [b])) = b := by
  unfold basename
  rw [jsSplit_intercalate _ h (by simp)]
  have h1 : (cs ++ [b]).reverse = b :: cs.reverse := by simp
  rw [h1]
  simp [List.dropWhile, hb]

theorem lastNonemptyIdx_snoc (cs : List String) (b : String) (hb : b ≠ "") :
    lastNonemptyIdx (cs ++ [b]) = some cs.length := by
  unfold lastNonemptyIdx
  have h1 : (cs ++ [b]).reverse = b :: cs.reverse := by simp
  rw [h1]
  have h2 : List.findIdx? (fun p => decide (p ≠ "")) (b :: cs.reverse) =
      some 0 := by
    simp [List.findIdx?, hb]
  rw [h2]
  simp

theorem dirname_plainName (b : String) (hb : PlainName b) : dirname b = "." := by
  unfold dirname
  rw [if_neg hb.1]
  have hsplit : jsSplit b = [b] := jsSplit_no_slash b hb.2.2.2
  have hidx : lastNonemptyIdx [b] = some 0 := by
    unfold lastNonemptyIdx
    simp [List.findIdx?, hb.1]
  simp only [hsplit, hidx]
  simp

theorem dirname_snoc (c : String) (cs : List String) (b : String)
    (h : ∀ x ∈ (c :: cs) ++ [b], PlainName x) :
    dirname (intercalateSlash ((c :: cs) ++ [b])) =
      intercalateSlash (c :: cs) := by
  have hcp := h c (by simp)
  have hcd : c.data ≠ [] := by
    intro hd
    exact hcp.1 (strExt (by simp [hd]))
  have hne : intercalateSlash ((c :: cs) ++ [b]) ≠ "" := by
    rw [List.cons_append]
    exact intercalateSlash_ne_empty c _ hcp.1
  have habs : startsWithSlash (intercalateSlash ((c :: cs) ++ [b])) = false := by
    rw [List.cons_append]
    exact startsWithSlash_intercalate c _ hcd hcp.2.2.2
  have hsplit : jsSplit (intercalateSlash ((c :: cs) ++ [b])) =
      (c :: cs) ++ [b] :=
    jsSplit_intercalate _ (fun p hp => (h p hp).2.2.2) (by simp)
  have hidx : lastNonemptyIdx ((c :: cs) ++ [b]) = some (c :: cs).length :=
    lastNonemptyIdx_snoc _ _ (h b (by simp)).1
  have hpre : intercalateSlash (c :: cs) ≠ "" :=
    intercalateSlash_ne_empty c _ hcp.1
  unfold dirname
  rw [if_neg hne]
  simp only [habs, hsplit, hidx]
  rw [if_neg (by simp : ¬(c :: cs).length = 0)]
  rw [List.take_left]
  rw [if_neg hpre]
  rw [if_neg (by simp)]

theorem popN_eq_take (ds : List String) (n : Nat) :
    popN ds n = ds.take (ds.length - n) := by
  induction n generalizing ds with
  | zero => simp [popN]
  | succ n ih =>
    rw [popN, ih, List.length_dropLast, List.dropLast_eq_take, List.take_take]
    congr 1
    omega

theorem jsSplit_dot : jsSplit "." = ["."] := by decide

theorem joinList_dot_plain (b : String) (hb : PlainName b) :
    joinList [".", b] = b := by
  unfold joinList
  have hfilter : ([".", b] : List String).filter (fun p => decide (p ≠ "")) =
      [".", b] := by
    simp [hb.1]
  rw [hfilter]
  have hbd : b.data ≠ [] := by
    intro hd
    exact hb.1 (strExt (by simp [hd]))
  have hdata : (intercalateSlash [".", b]).data = '.' :: '/' :: b.data := by
    show (("." ++ "/" ++ b) : String).data = _
    rw [strData_append, strData_append]
    rfl
  have hne : intercalateSlash [".", b] ≠ "" :=
    str_ne_empty_of_data (by rw [hdata]; simp)
  rw [if_neg hne]
  unfold normalize
  rw [if_neg hne]
  have habs : startsWithSlash (intercalateSlash [".", b]) = false := by
    unfold startsWithSlash
    rw [hdata]
    simp
  have htrail : endsWithSlash (intercalateSlash [".", b]) = false := by
    unfold endsWithSlash
    rw [hdata]
    have : ('.' :: '/' :: b.data).getLast? = b.data.getLast? := by
      rw [show ('.' :: '/' :: b.data) = ['.', '/'] ++ b.data from rfl]
      exact List.getLast?_append_of_ne_nil _ hbd
    rw [this]
    cases hbl : b.data.getLast? with
    | none => rfl
    | some ch =>
      have : ch ≠ '/' := by
        intro hc
        exact hb.2.2.2 (hc ▸ List.mem_of_mem_getLast? hbl)
      simp [this]
  have hsplit : jsSplit (intercalateSlash [".", b]) = [".", b] := by
    unfold jsSplit
    rw [hdata, show ('.' :: '/' :: b.data) = ['.'] ++ '/' :: b.data from rfl,
      splitChars_split_at _ _ (by simp), splitChars_no_slash _ hb.2.2.2]
    rfl
  simp only [habs, htrail, hsplit, Bool.not_false, Bool.false_eq_true, if_false]
  rw [normParts_dropped true [".", b]
    (by
      intro p hp
      rcases List.mem_cons.mp hp with hp | hp
      · exact Or.inr (Or.inl hp)
      · simp only [List.mem_singleton] at hp
        exact Or.inr (Or.inr (hp ▸ hb))) []]
  have hfilter2 : ([".", b] : List String).filter
      (fun p => decide (p ≠ "" ∧ p ≠ ".")) = [b] := by
    simp [hb.1, hb.2.1]
  simp only [List.reverse_nil, List.nil_append, hfilter2]
  rw [if_neg (by simp)]
  rw [str_append_empty, str_empty_append]
  rfl

/-! ### Lemmas about the zip-strip walk -/

theorem lookupName_of_mem (entries : List (String × FSTree)) (name : String)
    (sub : FSTree) (hnd : (entries.map Prod.fst).Nodup)
    (hmem : (name, sub) ∈ entries) : lookupName entries name = some sub := by
  induction entries with
  | nil => cases hmem
  | cons e rest ih =>
    obtain ⟨m, t⟩ := e
    rw [List.map_cons, List.nodup_cons] at hnd
    rcases List.mem_cons.mp hmem with he | he
    · injection he with h1 h2
      subst h1
      subst h2
      simp [lookupName]
    · have hm : m ≠ name := by
        intro hmn
        subst hmn
        have hmm : (m, sub).1 ∈ rest.map Prod.fst :=
          List.mem_map_of_mem Prod.fst he
        exact hnd.1 hmm
      simp only [lookupName, if_neg hm]
      exact ih hnd.2 he

theorem mem_of_lookupName (entries : List (String × FSTree)) (name : String)
    (sub : FSTree) (h : lookupName entries name = some sub) :
    (name, sub) ∈ entries := by
  induction entries with
  | nil => cases h
  | cons e rest ih =>
    obtain ⟨m, t⟩ := e
    by_cases hm : m = name
    · subst hm
      simp only [lookupName, eq_self_iff_true, if_true, Option.some.injEq] at h
      subst h
      exact List.mem_cons_self _ _
    · simp only [lookupName, if_neg hm] at h
      exact List.mem_cons_of_mem _ (ih h)

theorem renderPath_cons (path n : String) (rest : List String) :
    renderPath path (n :: rest) = renderPath (joinList [path, n]) rest := rfl

theorem findPath_nil (t : FSTree) : FSTree.findPath t [] = some t := by
  cases t <;> rfl

theorem walkDir_dir_eq (entries : List (String × FSTree)) (path : String)
    (maxD c : Nat) (hc : ¬c > maxD) :
    walkDir (.dir entries) path maxD c =
      entries.flatMap fun e =>
        match e.2 with
        | .file => [joinList [path, e.1]]
        | .dir _ =>
          if c + 1 < maxD then walkDir e.2 (joinList [path, e.1]) maxD (c + 1)
          else [joinList [path, e.1]] := by
  rw [walkDir.eq_def, if_neg hc]
  simp only []
  congr 1

theorem walkDir_cutoff_iff (entries : List (String × FSTree)) (path : String)
    (maxD c : Nat) (hc : c ≤ maxD) (hcut : ¬(c + 1 < maxD))
    (hnd : (entries.map Prod.fst).Nodup) (s : String) :
    (s ∈ walkDir (.dir entries) path maxD c ↔
      ∃ (comps : List String) (sub : FSTree),
        FSTree.findPath (.dir entries) comps = some sub ∧
        s = renderPath path comps ∧ comps ≠ [] ∧
        ((sub = FSTree.file ∧ (comps.length = 1 ∨ c + comps.length ≤ maxD)) ∨
         ((∃ es, sub = FSTree.dir es) ∧
           (comps.length = 1 ∨ c + comps.length ≤ maxD) ∧
           maxD ≤ c + comps.length))) := by
  rw [walkDir_dir_eq entries path maxD c (by omega)]
  rw [List.mem_flatMap]
  constructor
  · rintro ⟨e, he, hs⟩
    obtain ⟨name, sub'⟩ := e
    have hs' : s = joinList [path, name] := by
      cases sub' with
      | file => simpa using hs
      | dir es' =>
        rw [if_neg hcut] at hs
        simpa using hs
    refine ⟨[name], sub', ?_, hs', by simp, ?_⟩
    · have hlk := lookupName_of_mem entries name sub' hnd he
      simp [FSTree.findPath, hlk]
    · cases sub' with
      | file => exact Or.inl ⟨rfl, Or.inl rfl⟩
      | dir es' =>
        refine Or.inr ⟨⟨es', rfl⟩, Or.inl rfl, ?_⟩
        simp only [List.length_singleton]
        omega
  · rintro ⟨comps, sub, hfind, hs, hne, hcond⟩
    obtain ⟨name, rest, rfl⟩ := List.exists_cons_of_ne_nil hne
    cases rest with
    | nil =>
      have hlk : lookupName entries name = some sub := by
        have hfind' : (match lookupName entries name with
            | some s0 => FSTree.findPath s0 []
            | none => none) = some sub := hfind
        cases hl : lookupName entries name with
        | none =>
          rw [hl] at hfind'
          exact Option.noConfusion hfind'
        | some s0 =>
          rw [hl] at hfind'
          have h2 : FSTree.findPath s0 [] = some sub := hfind'
          rw [findPath_nil] at h2
          exact h2
      refine ⟨(name, sub), mem_of_lookupName _ _ _ hlk, ?_⟩
      cases sub with
      | file =>
        rw [hs]
        exact List.mem_singleton.mpr rfl
      | dir es' =>
        rw [if_neg hcut, hs]
        exact List.mem_singleton.mpr rfl
    | cons r rest' =>
      exfalso
      have hlen : (name :: r :: rest').length = rest'.length + 2 := by simp
      rcases hcond with ⟨_, h1⟩ | ⟨_, h1, _⟩ <;> (rw [hlen] at h1; omega)

theorem walkDir_file (path : String) (maxD c : Nat) :
    walkDir FSTree.file path maxD c = [] := by
  rw [walkDir.eq_def]
  split <;> rfl

theorem findPath_file_cons (x : String) (rest : List String) :
    FSTree.findPath .file (x :: rest) = none := rfl

theorem mem_walkDir_iff (maxD : Nat) :
    ∀ (n : Nat) (t : FSTree) (path : String) (c : Nat),
      maxD - c ≤ n → c ≤ maxD → t.WF → ∀ s : String,
      (s ∈ walkDir t path maxD c ↔
        ∃ (comps : List String) (sub : FSTree),
          t.findPath comps = some sub ∧ s = renderPath path comps ∧
          comps ≠ [] ∧
          ((sub = FSTree.file ∧ (comps.length = 1 ∨ c + comps.length ≤ maxD)) ∨
           ((∃ es, sub = FSTree.dir es) ∧
             (comps.length = 1 ∨ c + comps.length ≤ maxD) ∧
             maxD ≤ c + comps.length))) := by
  intro n
  induction n with
  | zero =>
    intro t path c hn hc hwf s
    cases hwf with
    | file =>
      rw [walkDir_file]
      simp only [List.not_mem_nil, false_iff]
      rintro ⟨comps, sub, hfind, _, hne, _⟩
      obtain ⟨x, rest, rfl⟩ := List.exists_cons_of_ne_nil hne
      rw [findPath_file_cons] at hfind
      exact Option.noConfusion hfind
    | dir entries hnd hsub =>
      exact walkDir_cutoff_iff entries path maxD c hc (by omega) hnd s
  | succ n ih =>
    intro t path c hn hc hwf s
    cases hwf with
    | file =>
      rw [walkDir_file]
      simp only [List.not_mem_nil, false_iff]
      rintro ⟨comps, sub, hfind, _, hne, _⟩
      obtain ⟨x, rest, rfl⟩ := List.exists_cons_of_ne_nil hne
      rw [findPath_file_cons] at hfind
      exact Option.noConfusion hfind
    | dir entries hnd hsub =>
      by_cases hrec : c + 1 < maxD
      · rw [walkDir_dir_eq entries path maxD c (by omega), List.mem_flatMap]
        constructor
        · rintro ⟨e, he, hs⟩
          obtain ⟨name, sub'⟩ := e
          cases sub' with
          | file =>
            have hs' : s = joinList [path, name] := by simpa using hs
            refine ⟨[name], .file, ?_, hs', by simp,
              Or.inl ⟨rfl, Or.inl rfl⟩⟩
            have hlk := lookupName_of_mem entries name .file hnd he
            simp [FSTree.findPath, hlk]
          | dir es' =>
            rw [if_pos hrec] at hs
            have hwf' : FSTree.WF (.dir es') := hsub (name, .dir es') he
            obtain ⟨comps', sub, hfind', hs', hne', hcond'⟩ :=
              (ih (.dir es') (joinList [path, name]) (c + 1) (by omega)
                (by omega) hwf' s).mp hs
            refine ⟨name :: comps', sub, ?_, ?_, by simp, ?_⟩
            · have hlk := lookupName_of_mem entries name (.dir es') hnd he
              have heq : FSTree.findPath (.dir entries) (name :: comps') =
                  (match lookupName entries name with
                   | some s0 => s0.findPath comps'
                   | none => none) := rfl
              rw [heq, hlk]
              exact hfind'
            · rw [renderPath_cons]
              exact hs'
            · have hlen' : 0 < comps'.length := List.length_pos.mpr hne'
              rcases hcond' with ⟨hf, hl⟩ | ⟨hd, hl, hge⟩
              · refine Or.inl ⟨hf, ?_⟩
                simp only [List.length_cons]
                omega
              · refine Or.inr ⟨hd, ?_, ?_⟩ <;>
                  (simp only [List.length_cons]; omega)
        · rintro ⟨comps, sub, hfind, hs, hne, hcond⟩
          obtain ⟨name, rest, rfl⟩ := List.exists_cons_of_ne_nil hne
          have hfind' : (match lookupName entries name with
              | some s0 => s0.findPath rest
              | none => none) = some sub := hfind
          cases hl : lookupName entries name with
          | none =>
            rw [hl] at hfind'
            exact Option.noConfusion hfind'
          | some sub₀ =>
            rw [hl] at hfind'
            have h2 : FSTree.findPath sub₀ rest = some sub := hfind'
            have hmem₀ := mem_of_lookupName _ _ _ hl
            refine ⟨(name, sub₀), hmem₀, ?_⟩
            cases rest with
            | nil =>
              rw [findPath_nil] at h2
              injection h2 with h2
              subst h2
              rcases hcond with ⟨hf, _⟩ | ⟨⟨es, hd⟩, _, hge⟩
              · subst hf
                rw [hs]
                exact List.mem_singleton.mpr rfl
              · subst hd
                exfalso
                simp only [List.length_singleton] at hge
                omega
            | cons r rest' =>
              cases sub₀ with
              | file =>
                rw [findPath_file_cons] at h2
                exact Option.noConfusion h2
              | dir es₀ =>
                rw [if_pos hrec]
                have hwf' : FSTree.WF (.dir es₀) := hsub (name, .dir es₀) hmem₀
                refine (ih (.dir es₀) (joinList [path, name]) (c + 1)
                    (by omega) (by omega) hwf' s).mpr ?_
                refine ⟨r :: rest', sub, h2, ?_, by simp, ?_⟩
                · rw [renderPath_cons] at hs
                  exact hs
                · rcases hcond with ⟨hf, hl⟩ | ⟨hd, hl, hge⟩
                  · refine Or.inl ⟨hf, ?_⟩
                    simp only [List.length_cons] at hl ⊢
                    omega
                  · refine Or.inr ⟨hd, ?_, ?_⟩ <;>
                      (simp only [List.length_cons] at hl hge ⊢; omega)
      · exact walkDir_cutoff_iff entries path maxD c hc hrec hnd s

/-! ### Claim theorems -/

/-- C3 (counterexample): extracting with `stripLevel = 1` (traversal bound
`stripLevel + 1 = 2`), a file directly below the destination — depth 1, i.e.
component path `["f"]` of length 1 ≠ 2 — is also collected as a leaf, against
the claim that exactly the entries at depth `stripLevel + 1` are collected
and "no entry shallower … than that depth is collected or renamed". -/
theorem C3_counterexample :
    walkDir (.dir [("f", .file), ("d", .dir [("g", .file)])]) "/dest" 2 0 =
      [renderPath "/dest" ["f"], renderPath "/dest" ["d", "g"]] ∧
    FSTree.findPath (.dir [("f", .file), ("d", .dir [("g", .file)])]) ["f"] =
      some .file ∧
    (["f"] : List String).length ≠ 2 := by
  refine ⟨?_, rfl, by decide⟩
  have h1 : joinList ["/dest", "f"] = "/dest/f" := by decide
  have h2 : joinList ["/dest", "d"] = "/dest/d" := by decide
  have h3 : joinList ["/dest/d", "g"] = "/dest/d/g" := by decide
  have hr1 : renderPath "/dest" ["f"] = "/dest/f" := by
    show joinList ["/dest", "f"] = "/dest/f"
    exact h1
  have hr2 : renderPath "/dest" ["d", "g"] = "/dest/d/g" := by
    show joinList [joinList ["/dest", "d"], "g"] = "/dest/d/g"
    rw [h2]
    exact h3
  rw [hr1, hr2]
  simp [walkDir.eq_def, h1, h2, h3]

/-- C3 (amended): for well-formed directory listings, the post-extraction
walk with bound `stripLevel + 1` collects exactly: every file at depth
1 … `stripLevel + 1`, and every directory at depth exactly `stripLevel + 1`
(treated as an opaque leaf, never descended into — nothing deeper is ever
collected); each collected leaf is renamed to `stripDirs(leaf, stripLevel)`.
Compared with the claim, the directory clause is as stated but files
shallower than `stripLevel + 1` are collected too. -/
theorem C3_walkdir_characterization (entries : List (String × FSTree))
    (strip : Nat) (dest : String) (hwf : FSTree.WF (.dir entries)) :
    (∀ s : String, s ∈ walkDir (.dir entries) dest (strip + 1) 0 ↔
      ∃ (comps : List String) (sub : FSTree),
        FSTree.findPath (.dir entries) comps = some sub ∧
        s = renderPath dest comps ∧ comps ≠ [] ∧
        ((sub = FSTree.file ∧ comps.length ≤ strip + 1) ∨
         ((∃ es, sub = FSTree.dir es) ∧ comps.length = strip + 1))) ∧
    zipStripRenames entries dest strip =
      (walkDir (.dir entries) dest (strip + 1) 0).map
        (fun leaf => (leaf, stripDirs leaf strip)) := by
  refine ⟨?_, rfl⟩
  intro s
  rw [mem_walkDir_iff (strip + 1) (strip + 1) (.dir entries) dest 0
    (by omega) (by omega) hwf s]
  constructor
  · rintro ⟨comps, sub, hfind, hs, hne, hcond⟩
    refine ⟨comps, sub, hfind, hs, hne, ?_⟩
    have hlen : 0 < comps.length := List.length_pos.mpr hne
    rcases hcond with ⟨hf, hl⟩ | ⟨hd, hl, hge⟩
    · exact Or.inl ⟨hf, by omega⟩
    · exact Or.inr ⟨hd, by omega⟩
  · rintro ⟨comps, sub, hfind, hs, hne, hcond⟩
    refine ⟨comps, sub, hfind, hs, hne, ?_⟩
    have hlen : 0 < comps.length := List.length_pos.mpr hne
    rcases hcond with ⟨hf, hl⟩ | ⟨hd, hl⟩
    · exact Or.inl ⟨hf, by omega⟩
    · exact Or.inr ⟨hd, by omega, by omega⟩

/-- Witness for `C3_walkdir_characterization`: in a directory holding one
top-level directory with one file, the depth-2 file leaf is collected by the
walk with `stripLevel = 1`. -/
theorem C3_walkdir_characterization_witness :
    renderPath "/d" ["top", "f"] ∈
      walkDir (.dir [("top", .dir [("f", .file)])]) "/d" (1 + 1) 0 :=
  ((C3_walkdir_characterization [("top", .dir [("f", .file)])] 1 "/d"
      (FSTree.WF.dir _ (by decide) (by
        intro e he
        simp only [List.mem_singleton] at he
        subst he
        exact FSTree.WF.dir _ (by decide) (by
          intro e' he'
          simp only [List.mem_singleton] at he'
          subst he'
          exact FSTree.WF.file)))).1
    (renderPath "/d" ["top", "f"])).mpr
    ⟨["top", "f"], .file, rfl, rfl, by decide, Or.inl ⟨rfl, by decide⟩⟩

/-- C4 (counterexample): the claim's `strip(p, 0) == p` for all `p` fails at
`p = "./a"` — `path.join` normalizes the rejoined path, so level 0 is not a
strict no-op on non-normalized input. -/
theorem C4_counterexample :
    stripDirs "./a" 0 = "a" ∧ ("a" : String) ≠ "./a" :=
  ⟨by decide, by decide⟩

/-- C4 (amended): on paths written as plain components `cs ++ [b]` (ordinary
names, no separators, no `.`/`..`), `stripDirs` splits into the directory
components `cs` plus leaf `b`; with fewer directory components than `level`
it returns the input unchanged; otherwise it removes exactly `level`
components from the deepest/rightmost end of the directory prefix and keeps
the leaf; level 0 returns the input.  (On general input, level 0 returns the
`path.join`-normalized rejoin, which can differ from the input — see the
counterexample.)  In particular an input with no directory components
(`cs = []`) returns the leaf unchanged for every level; the function is pure
and total by construction. -/
theorem C4_stripDirs_characterization (cs : List String) (b : String)
    (level : Nat) (h : ∀ x ∈ cs ++ [b], PlainName x) :
    stripDirs (intercalateSlash (cs ++ [b])) 0 = intercalateSlash (cs ++ [b]) ∧
    (level ≤ cs.length →
      stripDirs (intercalateSlash (cs ++ [b])) level =
        intercalateSlash (cs.take (cs.length - level) ++ [b])) ∧
    (cs.length < level →
      stripDirs (intercalateSlash (cs ++ [b])) level =
        intercalateSlash (cs ++ [b])) := by
  have hb := h b (by simp)
  cases cs with
  | nil =>
    have hdir : dirname b = "." := dirname_plainName b hb
    have hbase : basename b = b :=
      basename_snoc [] b (fun x hx => (h x hx).2.2.2) hb.1
    have key : ∀ lv, stripDirs b lv = b := by
      intro lv
      unfold stripDirs
      rw [hdir, jsSplit_dot, hbase]
      by_cases hl : (["."] : List String).length < lv
      · rw [if_pos hl]
        exact joinList_dot_plain b hb
      · rw [if_neg hl]
        simp only [List.length_singleton] at hl
        have hl1 : lv = 0 ∨ lv = 1 := by omega
        rcases hl1 with rfl | rfl
        · exact joinList_dot_plain b hb
        · show joinList ([] ++ [b]) = b
          rw [joinList_snoc_plain [] b (by
            intro x hx
            simp only [List.nil_append, List.mem_singleton] at hx
            exact hx ▸ hb)]
          rfl
    refine ⟨key 0, ?_, fun _ => key level⟩
    intro _
    rw [List.take_nil]
    exact key level
  | cons c cs' =>
    have hdirname := dirname_snoc c cs' b h
    have hbase :=
      basename_snoc (c :: cs') b (fun x hx => (h x hx).2.2.2) hb.1
    have hsplit_cs : jsSplit (intercalateSlash (c :: cs')) = c :: cs' :=
      jsSplit_intercalate _
        (fun p hp => (h p (List.mem_append_left _ hp)).2.2.2) (by simp)
    have key2 : ∀ lv, lv ≤ (c :: cs').length →
        stripDirs (intercalateSlash ((c :: cs') ++ [b])) lv =
          intercalateSlash ((c :: cs').take ((c :: cs').length - lv) ++ [b]) := by
      intro lv hlv
      unfold stripDirs
      rw [hdirname, hsplit_cs, hbase]
      rw [if_neg (by omega)]
      rw [popN_eq_take]
      refine joinList_snoc_plain _ b ?_
      intro x hx
      rcases List.mem_append.mp hx with hx | hx
      · exact h x (List.mem_append_left _ (List.take_subset _ _ hx))
      · simp only [List.mem_singleton] at hx
        exact hx ▸ hb
    refine ⟨?_, fun hl => key2 level hl, ?_⟩
    · have h0 := key2 0 (by omega)
      rwa [Nat.sub_zero, List.take_length] at h0
    · intro hl
      unfold stripDirs
      rw [hdirname, hsplit_cs, hbase]
      rw [if_pos (by omega)]
      exact joinList_snoc_plain _ b h

/-- Witness for `C4_stripDirs_characterization` at `top/sub/f`, level 1. -/
theorem C4_stripDirs_characterization_witness :
    stripDirs (intercalateSlash (["top", "sub"] ++ ["f"])) 0 =
      intercalateSlash (["top", "sub"] ++ ["f"]) ∧
    stripDirs (intercalateSlash (["top", "sub"] ++ ["f"])) 1 =
      intercalateSlash
        ((["top", "sub"] : List String).take
          ((["top", "sub"] : List String).length - 1) ++ ["f"]) :=
  ⟨(C4_stripDirs_characterization ["top", "sub"] "f" 1 (by decide)).1,
   (C4_stripDirs_characterization ["top", "sub"] "f" 1 (by decide)).2.1
     (by decide)⟩

/-- C1: the claim says a failing phase makes `build()`'s promise reject with
the first error and that `build()` does not resolve while phases run or fail.
The code drops the `await` on `tempDirectoryTask`, so `build()` resolves
successfully right after `ensureExist()` even though the build task fails
with a command error: evaluating the model at the failing input shows the
promise `build()` returns is `ok` while the discarded task promise carries
the error. -/
theorem C1_build_resolves_despite_phase_failure :
    (builderX.build hostX envX "/tmp/bb").1 = .ok () ∧
    (builderX.build hostX envX "/tmp/bb").2 =
      .error "Build error: false returns 1" :=
  ⟨rfl, rfl⟩

/-- C2: for a non-success HTTP status the error does report the status code
and status text, but — the write stream having been created before the
`resp.ok` check, and the HTTP-error path performing no unlink — a file (empty)
remains at the destination path, against the claim's "no file (partial or
empty) remains". -/
theorem C2_http_error_leaves_file_at_dest :
    downloadFromURL "http://example.com/a.zip"
        ⟨false, 404, "Not Found", false, false⟩ =
      (.error "HTTP error (404): Not Found", true) :=
  rfl

/-- C6: with commands `[A (exit 0), B (exit 1), C]` the loop executes exactly
`[A, B]` — C never runs — and throws `Build error` naming B and its exit
code; but `build()`'s promise still resolves successfully because the task
holding the loop is not awaited, against the claim's "build() fails". -/
theorem C6_command_failure_halts_but_build_resolves :
    runCmdsTrace envX.run builderX.cmds =
      ([cmdA, cmdB], .error "Build error: false returns 1") ∧
    cmdC ∉ (runCmdsTrace envX.run builderX.cmds).1 ∧
    (builderX.build hostX envX "/tmp/bb").1 = .ok () :=
  ⟨rfl, by decide, rfl⟩

/-- C7: `downloadAndExtract` maps `application/gzip` and `application/x-bzip2`
to the tar family and `application/zip` to the zip family, requesting
extraction to the destination directory with the given strip level, and fails
on any other detected type with an error naming the url and the type. -/
theorem C7_format_mapping (url dest temp : String) (strip : Option Nat) :
    downloadAndExtract url dest strip (.ok ()) "application/gzip" temp =
      .ok ⟨temp, dest, .tar, strip⟩ ∧
    downloadAndExtract url dest strip (.ok ()) "application/x-bzip2" temp =
      .ok ⟨temp, dest, .tar, strip⟩ ∧
    downloadAndExtract url dest strip (.ok ()) "application/zip" temp =
      .ok ⟨temp, dest, .zip, strip⟩ ∧
    ∀ mime, mime ≠ "application/gzip" → mime ≠ "application/x-bzip2" →
      mime ≠ "application/zip" →
      downloadAndExtract url dest strip (.ok ()) mime temp =
        .error ("Unsupported format for " ++ url ++ ": " ++ mime) := by
  refine ⟨rfl, rfl, rfl, ?_⟩
  intro mime h1 h2 h3
  simp [downloadAndExtract, h1, h2, h3]

/-- Witness for `C7_format_mapping` at concrete inputs. -/
theorem C7_format_mapping_witness :
    downloadAndExtract "u" "/d" (some 1) (.ok ()) "application/gzip" "/t" =
      .ok ⟨"/t", "/d", .tar, some 1⟩ ∧
    downloadAndExtract "u" "/d" (some 1) (.ok ()) "text/html" "/t" =
      .error "Unsupported format for u: text/html" :=
  ⟨(C7_format_mapping "u" "/d" "/t" (some 1)).1,
   (C7_format_mapping "u" "/d" "/t" (some 1)).2.2.2 "text/html"
     (by decide) (by decide) (by decide)⟩

/-- C9: `getSrcs` returns exactly the registered sources whose os/arch equal
the host's, in registration order (a sublist of the registration sequence);
and a source registered through `src(url)` is pinned to the host at
registration time — matching later against a host `h2` keeps it exactly when
`h2` coincides with the registration-time host `h1`. -/
theorem C9_matching_and_pinning (host : Host) (b : BinBuilder) :
    (∀ s : Source, s ∈ b.getSrcs host ↔
      s ∈ b.sources ∧ s.os = host.platform ∧ s.arch = host.arch) ∧
    (b.getSrcs host).Sublist b.sources ∧
    (∀ (h1 h2 : Host) (url : String),
      (BinBuilder.src h1 b url).getSrcs h2 =
        b.getSrcs h2 ++
          if h1.platform = h2.platform ∧ h1.arch = h2.arch
          then [⟨h1.platform, h1.arch, url⟩] else []) := by
  refine ⟨?_, List.filter_sublist _, ?_⟩
  · intro s
    simp [BinBuilder.getSrcs, List.mem_filter, and_assoc]
  · intro h1 h2 url
    simp only [BinBuilder.src, BinBuilder.srcWith, BinBuilder.getSrcs,
      List.filter_append]
    by_cases h : h1.platform = h2.platform ∧ h1.arch = h2.arch
    · simp [h]
    · simp [h]

/-- C10: whenever the download phase issues its pipeline calls, there is one
call per matching source, in order, and every call carries the build
directory and the fixed strip level 1 — for every builder configuration, so
no configuration operation can change the depth. -/
theorem C10_strip_fixed_at_one (host : Host) (b : BinBuilder)
    (buildDir : String) (calls : List DLCall)
    (h : b.downloadCalls host buildDir = .ok calls) :
    calls.map DLCall.url = (b.getSrcs host).map Source.url ∧
    ∀ c ∈ calls, c.strip = some 1 ∧ c.dest = buildDir := by
  unfold BinBuilder.downloadCalls at h
  by_cases hlen : (b.getSrcs host).length < 1
  · simp [hlen] at h
  · simp only [hlen, if_false] at h
    cases h
    constructor
    · simp
    · intro c hc
      simp only [List.mem_map] at hc
      obtain ⟨s, _, rfl⟩ := hc
      exact ⟨rfl, rfl⟩

/-- C5: with an empty remap list the remap phase performs exactly one
operation — renaming the whole temporary build directory to the target
directory — so afterwards the target holds exactly the subtree (hence exactly
the entries) that the temporary directory held, and nothing remains at the
temporary location. -/
theorem C5_empty_remap_moves_build_dir (b : BinBuilder) (buildDir : String)
    (fs : FlatFS) (t : FSTree) (hr : b.fileRemaps = [])
    (hs : lookupFS fs buildDir = some t) (hne : buildDir ≠ b.destination) :
    (b.remapPhase buildDir fs).2 = [FSOp.rename buildDir b.destination] ∧
    lookupFS (b.remapPhase buildDir fs).1 b.destination = some t ∧
    lookupFS (b.remapPhase buildDir fs).1 buildDir = none := by
  unfold BinBuilder.remapPhase
  rw [if_neg (by simp [hr])]
  have happ : applyOp fs (.rename buildDir b.destination) =
      (b.destination, t) ::
        (fs : List (String × FSTree)).filter
          (fun e => decide (e.1 ≠ buildDir ∧ e.1 ≠ b.destination)) := by
    simp only [applyOp, hs]
  refine ⟨rfl, ?_, ?_⟩
  · show lookupFS (applyOp fs (.rename buildDir b.destination)) b.destination =
      some t
    rw [happ]
    unfold lookupFS
    rw [List.find?_cons_of_pos _ (by simp)]
    rfl
  · show lookupFS (applyOp fs (.rename buildDir b.destination)) buildDir = none
    rw [happ]
    unfold lookupFS
    rw [List.find?_cons_of_neg _ (by simp [Ne.symm hne])]
    rw [List.find?_eq_none.mpr]
    · rfl
    · intro x hx
      have hx2 := (List.mem_filter.mp hx).2
      simp only [decide_eq_true_eq] at hx2
      simp [hx2.1]

/-- Witness for `C5_empty_remap_moves_build_dir` at a concrete store holding
two entries under the temporary build directory. -/
theorem C5_empty_remap_moves_build_dir_witness :
    (BinBuilder.remapPhase { BinBuilder.new with destination := "/opt/bin" }
        "/tmp/bb" [("/tmp/bb", .dir [("bin", .file), ("lib", .dir [])])]).2 =
      [FSOp.rename "/tmp/bb" "/opt/bin"] ∧
    lookupFS (BinBuilder.remapPhase { BinBuilder.new with destination := "/opt/bin" }
        "/tmp/bb" [("/tmp/bb", .dir [("bin", .file), ("lib", .dir [])])]).1 "/opt/bin" =
      some (.dir [("bin", .file), ("lib", .dir [])]) ∧
    lookupFS (BinBuilder.remapPhase { BinBuilder.new with destination := "/opt/bin" }
        "/tmp/bb" [("/tmp/bb", .dir [("bin", .file), ("lib", .dir [])])]).1 "/tmp/bb" =
      none :=
  C5_empty_remap_moves_build_dir
    { BinBuilder.new with destination := "/opt/bin" } "/tmp/bb"
    [("/tmp/bb", .dir [("bin", .file), ("lib", .dir [])])]
    (.dir [("bin", .file), ("lib", .dir [])]) rfl rfl (by decide)

/-- C8: a source string is classified local exactly when it does not parse as
a URL or parses with scheme `file:`; a local source is copied from
`trimLocalURL(url)` (the parsed `pathname`, or the raw string) byte-for-byte
to the destination, and a remote source is fetched with an HTTP GET and no
local copy. -/
theorem C8_source_classification (parse : String → Option URLRec)
    (url dest : String) :
    (isLocalPath parse url = true ↔
      parse url = none ∨ ∃ u, parse url = some u ∧ u.protocol = "file:") ∧
    (isLocalPath parse url = true →
      download parse url dest = .copy (trimLocalURL parse url) dest) ∧
    (isLocalPath parse url = false →
      download parse url dest = .fetchGET url dest) ∧
    (∀ (fs : Files) (src : String) (bytes : List Nat),
      readFile fs src = some bytes →
      readFile (copyLocalFile fs src dest) dest = some bytes) := by
  refine ⟨?_, ?_, ?_, ?_⟩
  · unfold isLocalPath isURL
    cases hp : parse url with
    | none => simp
    | some u =>
      simp only [Option.isSome_some, if_true, Option.some.injEq]
      by_cases hu : u.protocol = "file:"
      · simp [hu]
      · simp [hu]
  · intro h
    unfold download
    rw [h]
    simp
  · intro h
    unfold download
    rw [h]
    simp
  · intro fs src bytes h
    unfold copyLocalFile
    rw [h]
    unfold readFile
    simp [List.find?]

/-- Witness for `C8_source_classification`: a concrete parser under which a
`file:` URL is copied from its pathname, a `https:` URL is fetched, and the
copy transfers the source bytes. -/
theorem C8_source_classification_witness :
    download (fun s => if s = "file:///x/a" then some ⟨"file:", "/x/a"⟩
        else if s = "https://h/a" then some ⟨"https:", "/a"⟩ else none)
      "file:///x/a" "/dest" = .copy "/x/a" "/dest" ∧
    download (fun s => if s = "file:///x/a" then some ⟨"file:", "/x/a"⟩
        else if s = "https://h/a" then some ⟨"https:", "/a"⟩ else none)
      "https://h/a" "/dest" = .fetchGET "https://h/a" "/dest" ∧
    readFile (copyLocalFile [("/x/a", [1, 2, 3])] "/x/a" "/dest") "/dest" =
      some [1, 2, 3] :=
  ⟨(C8_source_classification _ "file:///x/a" "/dest").2.1 (by decide),
   (C8_source_classification _ "https://h/a" "/dest").2.2.1 (by decide),
   (C8_source_classification
      (fun s => if s = "file:///x/a" then some ⟨"file:", "/x/a"⟩
        else if s = "https://h/a" then some ⟨"https:", "/a"⟩ else none)
      "https://h/a" "/dest").2.2.2 [("/x/a", [1, 2, 3])] "/x/a" [1, 2, 3] rfl⟩

/-- Witness for `C10_strip_fixed_at_one` at a concrete configuration. -/
theorem C10_strip_fixed_at_one_witness :
    (⟨"https://example.com/a.tgz", "/tmp/bb", some 1⟩ : DLCall).strip = some 1 ∧
    (⟨"https://example.com/a.tgz", "/tmp/bb", some 1⟩ : DLCall).dest = "/tmp/bb" :=
  (C10_strip_fixed_at_one hostX builderX "/tmp/bb"
      [⟨"https://example.com/a.tgz", "/tmp/bb", some 1⟩] rfl).2
    _ (by decide)

end BinBuild
